import Mathlib

set_option linter.unusedVariables false
set_option linter.unnecessarySeqFocus false

/-
  Verification of the backup-butler core against its specification.

  The Go sources are shallowly embedded: pure functions become Lean
  functions, file contents are lists of byte values (Nat), machine
  integers are Int (sizes and unix mod-times are far from the int64
  range), and fallible operations return Option. The sha256 digest map
  is abstracted as an explicit function argument of type
  List Nat -> List Nat, mirroring the hash.Hash abstraction of the Go
  code; deterministic digesting is by construction, and collision
  freedom is an explicit hypothesis where a proof needs it.
-/

namespace BackupButler

/-- Validation level (internal/types/common.go, ValidationLevel). -/
inductive Level
  | quick
  | standard
  | deep
deriving DecidableEq, Repr

/-- File comparison status (internal/scan/types.go, FileStatus). -/
inductive FileStatus
  | statusMatch
  | statusNew
  | statusMissing
  | statusDiffer
  | statusError
deriving DecidableEq, Repr

/-- Embedding of scan.FileInfo restricted to the fields the comparators
read: size and unix mod-time, plus the byte content of the file on disk
and a readability flag standing for the outcome of os.Open and the
subsequent reads on that path. -/
structure FInfo where
  size : Int
  modTime : Int
  content : List Nat
  readable : Bool
deriving DecidableEq, Repr

/-- QuickValidator.Compare (internal/validation/quick.go lines 23-52):
metadata-only comparison; true exactly when the result has Equal set.
The source computes abs(source.ModTime - target.ModTime) over int64 and
compares it with the 2-second tolerance. -/
def quickCompare (source target : FInfo) : Bool :=
  if source.size != target.size then false
  else if (source.modTime - target.modTime).natAbs > 2 then false
  else true

/-- Which file a hash computation was run on. -/
inductive Side
  | src
  | tgt
deriving DecidableEq, Repr

/-- Kind of content inspection: a digest of the leading bufferSize bytes,
or a full-content read (full hash or chunked byte comparison). -/
inductive HKind
  | pre
  | full
deriving DecidableEq, Repr

/-- One recorded hash computation, in execution order. -/
structure HashEv where
  kind : HKind
  side : Side
deriving DecidableEq, Repr

/-- hashPartialFile (internal/scan/compare.go lines 192-209): sha256 over
the first bufferSize bytes (io.ReadFull reads min(bufferSize, length)
bytes); none models an open or read failure. -/
def hashHead (h : List Nat → List Nat) (bufSize : Nat) (f : FInfo) : Option (List Nat) :=
  if f.readable then some (h (f.content.take bufSize)) else none

/-- hashFile (internal/scan/compare.go lines 218-231): sha256 over the
entire content; none models an open or read failure. -/
def hashFull (h : List Nat → List Nat) (f : FInfo) : Option (List Nat) :=
  if f.readable then some (h f.content) else none

/-- Scanner.compareFiles (internal/scan/compare.go lines 118-189),
instrumented with the ordered list of content inspections it performs.
The metadata gate always runs first; Quick stops there; Standard hashes
the first bufferSize bytes of each side (defaulting the size to 32768
when configured as 0); any other level hashes the full content of each
side directly. -/
def compareFilesT (h : List Nat → List Nat) (bufSize : Nat) (src tgt : FInfo)
    (lvl : Level) : FileStatus × List HashEv :=
  if src.size != tgt.size then (.statusDiffer, [])
  else if (src.modTime - tgt.modTime).natAbs > 2 then (.statusDiffer, [])
  else if lvl = .quick then (.statusMatch, [])
  else if lvl = .standard then
    let bs := if bufSize = 0 then 32768 else bufSize
    match hashHead h bs src with
    | none => (.statusError, [⟨.pre, .src⟩])
    | some srcHash =>
      match hashHead h bs tgt with
      | none => (.statusError, [⟨.pre, .src⟩, ⟨.pre, .tgt⟩])
      | some tgtHash =>
        if srcHash != tgtHash then (.statusDiffer, [⟨.pre, .src⟩, ⟨.pre, .tgt⟩])
        else (.statusMatch, [⟨.pre, .src⟩, ⟨.pre, .tgt⟩])
  else
    match hashFull h src with
    | none => (.statusError, [⟨.full, .src⟩])
    | some srcHash =>
      match hashFull h tgt with
      | none => (.statusError, [⟨.full, .src⟩, ⟨.full, .tgt⟩])
      | some tgtHash =>
        if srcHash != tgtHash then (.statusDiffer, [⟨.full, .src⟩, ⟨.full, .tgt⟩])
        else (.statusMatch, [⟨.full, .src⟩, ⟨.full, .tgt⟩])

/-- bytesEqual (internal/validation/deep.go lines 265-275): length check,
then an or-accumulation of the xor of each byte pair, equal when the
accumulator is zero. -/
def bytesEqual (a b : List Nat) : Bool :=
  if a.length != b.length then false
  else ((List.zipWith (fun x y => x ^^^ y) a b).foldl (fun r z => r ||| z) 0) == 0

/-- Outcome of the chunked comparison loop of DeepValidator.Compare. -/
inductive ChunkOut
  | eq
  | lengthDiff
  | contentDiff
deriving DecidableEq, Repr

/-- Chunked comparison loop of DeepValidator.Compare (deep.go lines
199-254), structured on explicit fuel; each round reads min(B, remaining)
bytes from each side, stops on the double EOF, on a single EOF, on a read
count mismatch, or on a bytesEqual failure, and otherwise recurses on the
remainders. The fuel default is never reached when the wrapper supplies
length + 1 rounds and B is positive. -/
def chunkCmpAux (B : Nat) : Nat → List Nat → List Nat → ChunkOut
  | 0, _, _ => .eq
  | fuel + 1, s, t =>
    if s.isEmpty && t.isEmpty then .eq
    else if s.isEmpty || t.isEmpty then .lengthDiff
    else if min B s.length != min B t.length then .lengthDiff
    else if !(bytesEqual (s.take B) (t.take B)) then .contentDiff
    else chunkCmpAux B fuel (s.drop B) (t.drop B)

/-- Chunked full-content comparison over whole byte sequences, as driven
by DeepValidator.Compare with buffer size B. -/
def chunkCmp (B : Nat) (s t : List Nat) : ChunkOut :=
  chunkCmpAux B (s.length + 1) s t

/-- Full-content hash comparison as in the Deep branch of
Scanner.compareFiles: both sides digest their entire content with the
same map and the digests are compared. -/
def fullHashEqual (h : List Nat → List Nat) (s t : List Nat) : Bool :=
  h s == h t

/-- Reason strings of validation.ComparisonResult, as an enumeration. -/
inductive VReason
  | sizesDiffer
  | modTimesDiffer
  | metadataMatch
  | unsupportedAlg
  | errSourceRead
  | errTargetRead
  | headMatch
  | contentDiffers
  | errSourceOpen
  | errTargetOpen
  | differentLengths
  | fullMatch
deriving DecidableEq, Repr

/-- validation.ComparisonResult instrumented with the level of the
validator that produced the result and the ordered list of content
inspections performed. -/
structure VResult where
  equal : Bool
  reason : VReason
  producedAt : Level
  events : List HashEv
deriving DecidableEq, Repr

/-- QuickValidator.Compare (quick.go lines 23-52) as a structured result:
the metadata gate, computing no hashes. -/
def quickCompareR (source target : FInfo) : VResult :=
  if source.size != target.size then ⟨false, .sizesDiffer, .quick, []⟩
  else if (source.modTime - target.modTime).natAbs > 2 then
    ⟨false, .modTimesDiffer, .quick, []⟩
  else ⟨true, .metadataMatch, .quick, []⟩

/-- StandardValidator.Compare (standard.go lines 37-85): re-runs the
quick comparison, then digests the first bufSize bytes of each side
(algOk models getHashFunc succeeding for the configured algorithm). -/
def standardCompareR (h : List Nat → List Nat) (algOk : Bool) (bufSize : Nat)
    (source target : FInfo) : VResult :=
  let q := quickCompareR source target
  if !q.equal then q
  else if !algOk then ⟨false, .unsupportedAlg, .standard, []⟩
  else
    match hashHead h bufSize source with
    | none => ⟨false, .errSourceRead, .standard, [⟨.pre, .src⟩]⟩
    | some srcHash =>
      match hashHead h bufSize target with
      | none => ⟨false, .errTargetRead, .standard, [⟨.pre, .src⟩, ⟨.pre, .tgt⟩]⟩
      | some tgtHash =>
        if srcHash == tgtHash then
          ⟨true, .headMatch, .standard, [⟨.pre, .src⟩, ⟨.pre, .tgt⟩]⟩
        else ⟨false, .contentDiffers, .standard, [⟨.pre, .src⟩, ⟨.pre, .tgt⟩]⟩

/-- DeepValidator.Compare (deep.go lines 155-262): quick gate, then the
standard comparison with the same options, then the chunked byte-by-byte
loop over both full contents; the full-content read of both sides is
recorded after the standard events. -/
def deepCompareR (h : List Nat → List Nat) (algOk : Bool) (bufSize : Nat)
    (source target : FInfo) : VResult :=
  let q := quickCompareR source target
  if !q.equal then q
  else
    let st := standardCompareR h algOk bufSize source target
    if !st.equal then st
    else if !source.readable then ⟨false, .errSourceOpen, .deep, st.events⟩
    else if !target.readable then ⟨false, .errTargetOpen, .deep, st.events⟩
    else
      let ev := st.events ++ [⟨.full, .src⟩, ⟨.full, .tgt⟩]
      match chunkCmp bufSize source.content target.content with
      | .eq => ⟨true, .fullMatch, .deep, ev⟩
      | .lengthDiff => ⟨false, .differentLengths, .deep, ev⟩
      | .contentDiff => ⟨false, .contentDiffers, .deep, ev⟩

/-- A filesystem mutation issued by the journal persistence code; rename
and remove are atomic, a write is not. -/
inductive FsOp
  | write (path : String) (data : List Nat)
  | rename (fromPath toPath : String)
  | remove (path : String)
deriving DecidableEq, Repr

/-- Filesystem state: each path maps to the content of the file there,
none when absent. -/
def FS : Type := String → Option (List Nat)

/-- Effect of one completed operation on the filesystem. -/
def applyOp (fs : FS) : FsOp → FS
  | .write p d => fun q => if q = p then some d else fs q
  | .rename a b => fun q => if q = b then fs a else if q = a then none else fs q
  | .remove p => fun q => if q = p then none else fs q

/-- Effect of a completed sequence of operations. -/
def applyOps (fs : FS) (ops : List FsOp) : FS :=
  ops.foldl applyOp fs

/-- State observed after a crash j bytes into the (i+1)-st operation:
the first i operations completed; a plain write in flight leaves the
target path holding a prefix of the new data, while rename and remove
are atomic so mid-operation the state is the pre-operation state. -/
def crashState (fs0 : FS) (ops : List FsOp) (i j : Nat) : FS :=
  let fs := applyOps fs0 (ops.take i)
  match ops[i]? with
  | some (.write p d) => fun q => if q = p then some (d.take j) else fs q
  | _ => fs

/-- Path p is crash-safe under the operation sequence: at every crash
point it reads either the prior content or the final content. -/
def atomicFor (fs0 : FS) (ops : List FsOp) (p : String) : Prop :=
  ∀ i j, crashState fs0 ops i j p = fs0 p ∨ crashState fs0 ops i j p = applyOps fs0 ops p

/-- Location of the fingerprint index, relative to the target base
directory (manager.go line 52). -/
def indexJsonPath : String := ".versions/index.json"

/-- Temporary file used by saveIndex (manager.go line 79). -/
def tmpIndexPath : String := ".versions/index.json.tmp"

/-- Location of a run record file (manager.go line 193). -/
def versionFilePath (id : String) : String :=
  ".versions/backups/" ++ id ++ ".json"

/-- Operation sequence of Manager.saveIndex (manager.go lines 73-96) on
its success path: write the marshalled index to the temporary path, then
rename it over the index path. -/
def saveIndexOps (d : List Nat) : List FsOp :=
  [.write tmpIndexPath d, .rename tmpIndexPath indexJsonPath]

/-- Operation sequence of Manager.CompleteVersion (manager.go lines
185-210): a single direct write of the marshalled run record to the
version file, followed by the removals done by cleanupOldVersions. -/
def completeVersionOps (id : String) (d : List Nat) (removals : List String) : List FsOp :=
  .write (versionFilePath id) d :: removals.map .remove

/-- Source file as seen by the copy routines: content, permission bits,
mod-time, and whether opening and reading it succeeds. -/
structure SFile where
  content : List Nat
  mode : Int
  modTime : Int
  readable : Bool
deriving DecidableEq, Repr

/-- Destination file state after a copy routine returns. -/
structure DFile where
  content : List Nat
  mode : Int
  mtime : Int
deriving DecidableEq, Repr

/-- How a copy routine returned. -/
inductive CopyRes
  | success
  | cancelled
  | writeErr
  | openErr
deriving DecidableEq, Repr

/-- Result of a copy routine: how it returned and the state of the
destination file afterwards (none when the file does not exist). -/
structure CopyOut where
  res : CopyRes
  dst : Option DFile
deriving DecidableEq, Repr

/-- Copy loop of Copier.Copy (internal/storage/copier.go lines 575-606):
at each buffer boundary k the context is checked first (cancelAt),
then a read of up to B bytes, then the write (writeErrAt injects a write
failure); on the EOF break the routine syncs, stats the source, sets the
destination permission bits with chmod and the mod-time with chtimes.
createMode and now are the mode and write timestamp the destination file
got at creation. No branch removes the destination file. The fuel
default is never reached when the wrapper supplies length + 1 rounds and
B is positive. -/
def copyLoopAux (B : Nat) (cancelAt writeErrAt : Option Nat)
    (srcMode srcMt createMode now : Int) :
    Nat → Nat → List Nat → List Nat → CopyOut
  | 0, _, _, acc => ⟨.writeErr, some ⟨acc, createMode, now⟩⟩
  | fuel + 1, k, r, acc =>
    if cancelAt = some k then ⟨.cancelled, some ⟨acc, createMode, now⟩⟩
    else if r.isEmpty then ⟨.success, some ⟨acc, srcMode, srcMt⟩⟩
    else if writeErrAt = some k then ⟨.writeErr, some ⟨acc, createMode, now⟩⟩
    else
      copyLoopAux B cancelAt writeErrAt srcMode srcMt createMode now
        fuel (k + 1) (r.drop B) (acc ++ r.take B)

/-- Copier.Copy (internal/storage/copier.go lines 548-634): directory
creation, source open (openErr when unreadable, before the destination
is created), destination creation, then the buffered loop above. -/
def copierCopy (B : Nat) (cancelAt writeErrAt : Option Nat) (src : SFile)
    (createMode now : Int) : CopyOut :=
  if !src.readable then ⟨.openErr, none⟩
  else
    copyLoopAux B cancelAt writeErrAt src.mode src.modTime createMode now
      (src.content.length + 1) 0 src.content []

/-- Manager.CopyFile (internal/storage/manager.go lines 464-506): open
source, create destination, io.CopyBuffer (copyErrAt injects a failure
after that many bytes), stat, chmod to the source mode; no chtimes call,
so the destination keeps its write timestamp. -/
def managerCopyFile (src : SFile) (copyErrAt : Option Nat)
    (createMode now : Int) : CopyOut :=
  if !src.readable then ⟨.openErr, none⟩
  else
    match copyErrAt with
    | some n => ⟨.writeErr, some ⟨src.content.take n, createMode, now⟩⟩
    | none => ⟨.success, some ⟨src.content, src.mode, now⟩⟩

/-- directoryProcessor.copyFile (internal/processor/processor.go lines
249-291): opens the source, creates the target with O_CREATE, O_TRUNC
and the source mode — the mode applies only when the file did not
already exist — copies the content, and when PreserveMetadata is set
calls chtimes with the source mod-time. -/
def processorCopyFile (src : SFile) (preserve : Bool) (dstPrior : Option DFile)
    (copyErrAt : Option Nat) (now : Int) : CopyOut :=
  if !src.readable then ⟨.openErr, dstPrior⟩
  else
    let m := match dstPrior with
      | none => src.mode
      | some d => d.mode
    match copyErrAt with
    | some n => ⟨.writeErr, some ⟨src.content.take n, m, now⟩⟩
    | none =>
      if preserve then ⟨.success, some ⟨src.content, m, src.modTime⟩⟩
      else ⟨.success, some ⟨src.content, m, now⟩⟩

/-- One entry of BackupVersion.Changes (version.FileChange). -/
structure FileChange where
  path : String
  action : String
  size : Int
  checksum : String
deriving DecidableEq, Repr

/-- BackupVersion.Stats.Total (version manager total counters). -/
structure TotalStats where
  totalFiles : Nat
  filesCopied : Nat
  filesSkipped : Nat
  filesFailed : Nat
  bytesCopied : Int
  bytesSkipped : Int
deriving DecidableEq, Repr

/-- Per-directory statistics (version.DirectoryStats). -/
structure DirStatsV where
  totalFiles : Nat
  totalBytes : Int
  copiedFiles : Nat
  copiedBytes : Int
  skippedFiles : Nat
  skippedBytes : Int
  failedFiles : Nat
deriving DecidableEq, Repr

/-- FileMetadata as stored in the fingerprint index (version.FileIndex). -/
structure FileMetadataV where
  lastBackupID : String
  size : Int
  modTime : Int
  checksum : String
deriving DecidableEq, Repr

/-- In-memory state of the version Manager that RecordFile mutates: the
current run record (changes, per-directory stats as an association list
standing for one iteration order of the Go map, totals) and the
fingerprint index as an association list. -/
structure MgrState where
  curID : String
  changes : List FileChange
  dirs : List (String × DirStatsV)
  total : TotalStats
  indexFiles : List (String × FileMetadataV)
deriving DecidableEq, Repr

/-- Parent directory of a slash-separated path (filepath.Dir restricted
to clean relative paths): everything before the last separator, "."
when there is none. -/
def dirOf (path : String) : String :=
  let parts := path.splitOn "/"
  if parts.length ≤ 1 then "." else String.intercalate "/" parts.dropLast

/-- Update applied to the first directory entry whose key is a string
prefix of dirPath, as in the loop of RecordFile (manager.go lines
134-155) with break after the first match. -/
def updateDirStats (status : String) (size : Int) (dirPath : String) :
    List (String × DirStatsV) → List (String × DirStatsV)
  | [] => []
  | (dir, st) :: rest =>
    if dir.isPrefixOf dirPath then
      let st :=
        if status = "copied" then
          { st with totalFiles := st.totalFiles + 1, totalBytes := st.totalBytes + size,
                    copiedFiles := st.copiedFiles + 1, copiedBytes := st.copiedBytes + size }
        else if status = "skipped" then
          { st with totalFiles := st.totalFiles + 1, totalBytes := st.totalBytes + size,
                    skippedFiles := st.skippedFiles + 1, skippedBytes := st.skippedBytes + size }
        else if status = "failed" then
          { st with totalFiles := st.totalFiles + 1, failedFiles := st.failedFiles + 1 }
        else st
      (dir, st) :: rest
    else (dir, st) :: updateDirStats status size dirPath rest

/-- Upsert into an association list (the Go map assignment
m.index.Files[path] = metadata). -/
def upsert (key : String) (value : FileMetadataV) :
    List (String × FileMetadataV) → List (String × FileMetadataV)
  | [] => [(key, value)]
  | (k, v) :: rest =>
    if k = key then (k, value) :: rest else (k, v) :: upsert key value rest

/-- Manager.RecordFile (internal/version/manager.go lines 116-183):
appends the change (checksum kept only for copied), updates the first
matching directory stats entry, updates the totals per status, and then
unconditionally upserts the fingerprint index entry for the path,
whatever the status was. -/
def recordFile (st : MgrState) (path status : String) (size : Int)
    (modTime : Int) (checksum : String) : MgrState :=
  let change : FileChange :=
    { path := path, action := status, size := size,
      checksum := if status = "copied" then checksum else "" }
  let dirs := updateDirStats status size (dirOf path) st.dirs
  let total :=
    if status = "copied" then
      { st.total with totalFiles := st.total.totalFiles + 1,
                      filesCopied := st.total.filesCopied + 1,
                      bytesCopied := st.total.bytesCopied + size }
    else if status = "skipped" then
      { st.total with totalFiles := st.total.totalFiles + 1,
                      filesSkipped := st.total.filesSkipped + 1,
                      bytesSkipped := st.total.bytesSkipped + size }
    else if status = "failed" then
      { st.total with totalFiles := st.total.totalFiles + 1,
                      filesFailed := st.total.filesFailed + 1 }
    else st.total
  let meta : FileMetadataV :=
    { lastBackupID := st.curID, size := size, modTime := modTime, checksum := checksum }
  { st with changes := st.changes ++ [change], dirs := dirs, total := total,
            indexFiles := upsert path meta st.indexFiles }

/-- Association list lookup for the fingerprint index. -/
def lookupIndex (key : String) : List (String × FileMetadataV) → Option FileMetadataV
  | [] => none
  | (k, v) :: rest => if k = key then some v else lookupIndex key rest

/-- Status carried by a worker TaskResult. -/
inductive TaskStatus
  | completed
  | skipped
  | failed
deriving DecidableEq, Repr

/-- Retry loop of Pool.executeWithRetry (internal/core/worker/pool.go
lines 136-165): attempts run from 1 while attempt <= retryAttempts;
execOk tells whether the executor succeeds at a given attempt number;
between failing attempts (attempt < retryAttempts) the loop sleeps
base * attempt * attempt plus the jitter drawn for that attempt.
Returns whether it succeeded, how many times the executor was invoked,
and the list of delays slept. The countdown argument equals
retryAttempts + 1 - attempt, so the zero case is exactly the loop
exiting with attempt > retryAttempts. -/
def retryAux (retryAttempts : Nat) (execOk : Nat → Bool) (base : Nat)
    (jitter : Nat → Nat) : Nat → Nat → Nat → List Nat → Bool × Nat × List Nat
  | 0, _, inv, delays => (false, inv, delays)
  | countdown + 1, attempt, inv, delays =>
    if execOk attempt then (true, inv + 1, delays)
    else if attempt < retryAttempts then
      retryAux retryAttempts execOk base jitter countdown (attempt + 1) (inv + 1)
        (delays ++ [base * attempt * attempt + jitter attempt])
    else (false, inv + 1, delays)

/-- Pool.executeWithRetry entry point: the loop starts at attempt 1, so
with retryAttempts = 0 the body never runs and the call fails with zero
invocations. -/
def executeWithRetry (retryAttempts : Nat) (execOk : Nat → Bool) (base : Nat)
    (jitter : Nat → Nat) : Bool × Nat × List Nat :=
  retryAux retryAttempts execOk base jitter retryAttempts 1 0 []

/-- Pool.processTask (pool.go lines 101-134): the skip check first (an
error there fails the task without invoking the executor), then the
retry loop; exactly one TaskResult is produced. Returns the status, the
number of executor invocations, and the delays slept. -/
def processTask (skip : Except Unit Bool) (retryAttempts : Nat)
    (execOk : Nat → Bool) (base : Nat) (jitter : Nat → Nat) :
    TaskStatus × Nat × List Nat :=
  match skip with
  | .error _ => (.failed, 0, [])
  | .ok true => (.skipped, 0, [])
  | .ok false =>
    match executeWithRetry retryAttempts execOk base jitter with
    | (true, inv, delays) => (.completed, inv, delays)
    | (false, inv, delays) => (.failed, inv, delays)

/-- One side of the storage configuration (config.StorageConfig). -/
structure StorageSide where
  storageType : String
  maxThreads : Nat
deriving DecidableEq, Repr

/-- Thread-count resolution of NewDirectoryProcessor (processor.go lines
59-82): a configured 0 picks the default of the storage type. -/
def resolveThreads (storageType : String) (maxThreads : Nat) : Nat :=
  if storageType = "ssd" then (if maxThreads = 0 then 16 else maxThreads)
  else if storageType = "network" then (if maxThreads = 0 then 8 else maxThreads)
  else (if maxThreads = 0 then 4 else maxThreads)

/-- Effective worker count of a sync run as the code computes it:
processDirectories (internal/commands/sync/sync.go lines 119-141) builds
the processor options from the source side only, and the processor uses
the resolved value as the capacity of its semaphore. -/
def effectiveWorkers (source target : StorageSide) : Nat :=
  resolveThreads source.storageType source.maxThreads

/-- Modelled from the spec: the effective worker count the specification
prescribes, min(source.max_threads, target.max_threads); written from
the spec words for comparison with effectiveWorkers. -/
def specEffectiveWorkers (source target : StorageSide) : Nat :=
  min source.maxThreads target.maxThreads

/-- Manager.cleanupOldVersions (manager.go lines 212-239): list the run
record files, sort descending (the timestamp-shaped names make the
lexicographic order the chronological one, so ids are modelled as Nat),
and when there are more than maxVersions remove everything beyond the
newest maxVersions. Returns (kept, removed). -/
def cleanupOldVersions (maxVersions : Nat) (files : List Nat) : List Nat × List Nat :=
  let sorted := files.insertionSort (· ≥ ·)
  if files.length > maxVersions then (sorted.take maxVersions, sorted.drop maxVersions)
  else (files, [])

/-- Manager.CompleteVersion retention step: the new run record file is
written first, then cleanupOldVersions runs over the directory with the
default maxVersions of 30 set by NewManager (manager.go line 28). -/
def completeVersionRetention (prior : List Nat) (newId : Nat) : List Nat × List Nat :=
  cleanupOldVersions 30 (prior ++ [newId])

/-- C2: at validation level Quick, for every pair where both files exist,
the comparator reports a difference exactly when the sizes differ or the
modification times are more than 2 seconds apart, and a match otherwise;
in particular identical sizes with mod-times at most 2 seconds apart give
Match at Quick regardless of the contents. Stated for both the
QuickValidator and the Quick branch of Scanner.compareFiles. -/
theorem quick_compare_metadata_gate (h : List Nat → List Nat) (bufSize : Nat)
    (s t : FInfo) :
    (quickCompare s t = true ↔
      (s.size = t.size ∧ (s.modTime - t.modTime).natAbs ≤ 2)) ∧
    ((compareFilesT h bufSize s t .quick).1 = .statusMatch ↔
      (s.size = t.size ∧ (s.modTime - t.modTime).natAbs ≤ 2)) ∧
    ((compareFilesT h bufSize s t .quick).1 = .statusDiffer ↔
      (s.size ≠ t.size ∨ (s.modTime - t.modTime).natAbs > 2)) := by
  unfold quickCompare compareFilesT
  by_cases hsz : s.size = t.size <;>
    by_cases hmt : (s.modTime - t.modTime).natAbs > 2 <;>
      simp [hsz, hmt] <;> omega

theorem lor_eq_zero_iff (x y : Nat) : x ||| y = 0 ↔ x = 0 ∧ y = 0 := by
  constructor
  · intro h
    have hb : ∀ k, x.testBit k = false ∧ y.testBit k = false := by
      intro k
      have h2 : (x ||| y).testBit k = false := by rw [h]; exact Nat.zero_testBit k
      rw [Nat.testBit_lor] at h2
      exact ⟨by simpa using congrArg (· && true) (Bool.or_eq_false_iff.mp h2).1,
             (Bool.or_eq_false_iff.mp h2).2⟩
    refine ⟨Nat.eq_of_testBit_eq fun k => ?_, Nat.eq_of_testBit_eq fun k => ?_⟩
    · rw [Nat.zero_testBit]; exact (hb k).1
    · rw [Nat.zero_testBit]; exact (hb k).2
  · rintro ⟨rfl, rfl⟩; rfl

theorem foldl_lor_eq_zero (l : List Nat) (acc : Nat) :
    l.foldl (fun r z => r ||| z) acc = 0 ↔ acc = 0 ∧ ∀ x ∈ l, x = 0 := by
  induction l generalizing acc with
  | nil => simp
  | cons x l ih =>
    simp only [List.foldl_cons, ih, lor_eq_zero_iff, List.mem_cons]
    constructor
    · rintro ⟨⟨h1, h2⟩, h3⟩
      exact ⟨h1, fun z hz => hz.elim (fun he => he ▸ h2) (h3 z)⟩
    · rintro ⟨h1, h2⟩
      exact ⟨⟨h1, h2 x (Or.inl rfl)⟩, fun z hz => h2 z (Or.inr hz)⟩

theorem zipWith_xor_zero_iff :
    ∀ (a b : List Nat), a.length = b.length →
      ((∀ x ∈ List.zipWith (fun x y => x ^^^ y) a b, x = 0) ↔ a = b)
  | [], [], _ => by simp
  | [], _ :: _, h => by simp at h
  | _ :: _, [], h => by simp at h
  | x :: a, y :: b, h => by
    have hlen : a.length = b.length := by simpa using h
    simp only [List.zipWith_cons_cons, List.mem_cons, List.cons.injEq]
    constructor
    · intro hz
      refine ⟨Nat.xor_eq_zero.mp (hz _ (Or.inl rfl)), ?_⟩
      exact (zipWith_xor_zero_iff a b hlen).mp fun z hzz => hz z (Or.inr hzz)
    · rintro ⟨rfl, rfl⟩
      intro z hz
      rcases hz with hz | hz
      · simp [hz]
      · exact (zipWith_xor_zero_iff a a rfl).mpr rfl z hz

theorem bytesEqual_iff (a b : List Nat) : bytesEqual a b = true ↔ a = b := by
  unfold bytesEqual
  by_cases h : a.length = b.length
  · simp only [h, bne_self_eq_false, Bool.false_eq_true, if_false, beq_iff_eq]
    rw [foldl_lor_eq_zero]
    simp [zipWith_xor_zero_iff a b h]
  · have : (a.length != b.length) = true := by simpa using h
    simp only [this, if_true]
    constructor
    · intro hc; simp at hc
    · intro hab; exact absurd (congrArg List.length hab) h

theorem chunkCmpAux_eq_iff (B : Nat) (hB : 0 < B) :
    ∀ (fuel : Nat) (s t : List Nat), s.length < fuel →
      (chunkCmpAux B fuel s t = .eq ↔ s = t)
  | 0, s, t, hf => absurd hf (by omega)
  | fuel + 1, s, t, hf => by
    unfold chunkCmpAux
    by_cases hs : s.isEmpty <;> by_cases ht : t.isEmpty
    · simp_all [List.isEmpty_iff]
    · simp_all [List.isEmpty_iff]
    · simp_all [List.isEmpty_iff]
    · simp only [hs, ht, Bool.and_self, Bool.false_and, Bool.and_false,
        Bool.false_or, Bool.or_false]
      rw [if_neg (by simp [hs]), if_neg (by simp [hs, ht])]
      by_cases hmin : min B s.length = min B t.length
      · rw [if_neg (by simp [hmin])]
        by_cases hbe : bytesEqual (s.take B) (t.take B) = true
        · rw [if_neg (by simp [hbe])]
          have htake : s.take B = t.take B := (bytesEqual_iff _ _).mp hbe
          have hslen : 0 < s.length := by
            cases s with
            | nil => simp at hs
            | cons _ _ => simp
          have hdrop : (s.drop B).length < fuel := by
            rw [List.length_drop]; omega
          rw [chunkCmpAux_eq_iff B hB fuel (s.drop B) (t.drop B) hdrop]
          constructor
          · intro hd
            calc s = s.take B ++ s.drop B := (List.take_append_drop B s).symm
            _ = t.take B ++ t.drop B := by rw [htake, hd]
            _ = t := List.take_append_drop B t
          · intro he; rw [he]
        · rw [if_pos (by simp [hbe])]
          constructor
          · intro hc; exact absurd hc (by simp)
          · intro he
            exact absurd ((bytesEqual_iff _ _).mpr (by rw [he])) hbe
      · rw [if_pos (by simp [hmin])]
        constructor
        · intro hc; exact absurd hc (by simp)
        · intro he
          exact (hmin (by rw [he])).elim

/-- C10: for readable files, the chunked byte-by-byte loop of
DeepValidator.Compare decides exactly byte-identity of the two contents,
and therefore agrees with the full-content digest comparison of the Deep
branch of Scanner.compareFiles whenever the digest map is injective
(the collision-freedom idealization of sha256). -/
theorem deep_chunk_refines_full_hash (h : List Nat → List Nat)
    (hinj : Function.Injective h) (B : Nat) (hB : 0 < B) (s t : List Nat) :
    ((chunkCmp B s t = .eq) ↔ fullHashEqual h s t = true) ∧
    ((chunkCmp B s t = .eq) ↔ s = t) := by
  have hmain : (chunkCmp B s t = .eq) ↔ s = t :=
    chunkCmpAux_eq_iff B hB (s.length + 1) s t (Nat.lt_succ_self _)
  refine ⟨?_, hmain⟩
  rw [hmain]
  unfold fullHashEqual
  constructor
  · rintro rfl; simp
  · intro hh; exact hinj (by simpa using hh)

/-- Witness for C10 at a concrete instance: buffer size 2, identity
digest map (injective), equal three-byte contents. -/
theorem deep_chunk_refines_full_hash_witness :
    chunkCmp 2 [1, 2, 3] [1, 2, 3] = .eq :=
  ((deep_chunk_refines_full_hash (fun l => l) (fun _ _ hxy => hxy) 2
    (by decide) [1, 2, 3] [1, 2, 3]).2).mpr rfl

theorem quickCompareR_events (s t : FInfo) : (quickCompareR s t).events = [] := by
  unfold quickCompareR
  split
  · rfl
  · split <;> rfl

theorem quickCompareR_producedAt (s t : FInfo) :
    (quickCompareR s t).producedAt = .quick := by
  unfold quickCompareR
  split
  · rfl
  · split <;> rfl

theorem standardCompareR_events_pre (h : List Nat → List Nat) (algOk : Bool)
    (bufSize : Nat) (src tgt : FInfo) :
    ∀ e ∈ (standardCompareR h algOk bufSize src tgt).events, e.kind = .pre := by
  simp only [standardCompareR]
  by_cases hq : (quickCompareR src tgt).equal
  · rw [if_neg (by simp [hq])]
    by_cases ha : algOk
    · rw [if_neg (by simp [ha])]
      cases hsrc : hashHead h bufSize src with
      | none => intro e he; rw [(by simpa using he : e = ⟨.pre, .src⟩)]
      | some sh =>
        cases htgt : hashHead h bufSize tgt with
        | none =>
          intro e he
          rcases (by simpa using he) with h1 | h1 <;> rw [h1]
        | some th =>
          dsimp only
          by_cases hbe : (sh == th) = true
          · rw [if_pos hbe]
            intro e he
            rcases (by simpa using he) with h1 | h1 <;> rw [h1]
          · rw [if_neg hbe]
            intro e he
            rcases (by simpa using he) with h1 | h1 <;> rw [h1]
    · rw [if_pos (by simp [ha])]
      intro e he; simp at he
  · rw [if_pos (by simp [hq]), quickCompareR_events]
    intro e he; simp at he

theorem standardCompareR_of_quick_fail (h : List Nat → List Nat) (algOk : Bool)
    (bufSize : Nat) (src tgt : FInfo)
    (hq : (quickCompareR src tgt).equal = false) :
    standardCompareR h algOk bufSize src tgt = quickCompareR src tgt := by
  simp only [standardCompareR]
  rw [if_pos (by simp [hq])]

theorem deepCompareR_of_quick_fail (h : List Nat → List Nat) (algOk : Bool)
    (bufSize : Nat) (src tgt : FInfo)
    (hq : (quickCompareR src tgt).equal = false) :
    deepCompareR h algOk bufSize src tgt = quickCompareR src tgt := by
  simp only [deepCompareR]
  rw [if_pos (by simp [hq])]

theorem deepCompareR_of_standard_fail (h : List Nat → List Nat) (algOk : Bool)
    (bufSize : Nat) (src tgt : FInfo)
    (hq : (quickCompareR src tgt).equal = true)
    (hst : (standardCompareR h algOk bufSize src tgt).equal = false) :
    deepCompareR h algOk bufSize src tgt = standardCompareR h algOk bufSize src tgt := by
  simp only [deepCompareR]
  rw [if_neg (by simp [hq]), if_pos (by simp [hst])]

theorem deepCompareR_events_split (h : List Nat → List Nat) (algOk : Bool)
    (bufSize : Nat) (src tgt : FInfo) :
    ∃ pres fulls, (deepCompareR h algOk bufSize src tgt).events = pres ++ fulls ∧
      (∀ e ∈ pres, e.kind = .pre) ∧ (∀ e ∈ fulls, e.kind = .full) := by
  by_cases hq : (quickCompareR src tgt).equal = true
  · by_cases hst : (standardCompareR h algOk bufSize src tgt).equal = true
    · simp only [deepCompareR]
      rw [if_neg (by simp [hq]), if_neg (by simp [hst])]
      by_cases hr1 : src.readable
      · by_cases hr2 : tgt.readable
        · rw [if_neg (by simp [hr1]), if_neg (by simp [hr2])]
          refine ⟨(standardCompareR h algOk bufSize src tgt).events,
            [⟨.full, .src⟩, ⟨.full, .tgt⟩], ?_,
            standardCompareR_events_pre h algOk bufSize src tgt, ?_⟩
          · cases chunkCmp bufSize src.content tgt.content <;> rfl
          · intro e he
            rcases (by simpa using he) with h1 | h1 <;> rw [h1]
        · rw [if_neg (by simp [hr1]), if_pos (by simp [hr2])]
          exact ⟨(standardCompareR h algOk bufSize src tgt).events, [], by simp,
            standardCompareR_events_pre h algOk bufSize src tgt, by simp⟩
      · rw [if_pos (by simp [hr1])]
        exact ⟨(standardCompareR h algOk bufSize src tgt).events, [], by simp,
          standardCompareR_events_pre h algOk bufSize src tgt, by simp⟩
    · rw [deepCompareR_of_standard_fail h algOk bufSize src tgt hq (by simpa using hst)]
      exact ⟨(standardCompareR h algOk bufSize src tgt).events, [], by simp,
        standardCompareR_events_pre h algOk bufSize src tgt, by simp⟩
  · rw [deepCompareR_of_quick_fail h algOk bufSize src tgt (by simpa using hq)]
    rw [quickCompareR_events]
    exact ⟨[], [], rfl, by simp, by simp⟩

theorem scannerT_events_pre (h : List Nat → List Nat) (bufSize : Nat)
    (src tgt : FInfo) :
    ∀ e ∈ (compareFilesT h bufSize src tgt .standard).2, e.kind = .pre := by
  simp only [compareFilesT]
  by_cases hsz : (src.size != tgt.size) = true
  · rw [if_pos hsz]; intro e he; simp at he
  · rw [if_neg hsz]
    by_cases hmt : (src.modTime - tgt.modTime).natAbs > 2
    · rw [if_pos hmt]; intro e he; simp at he
    · rw [if_neg hmt, if_neg (by simp), if_pos trivial]
      cases hsrc : hashHead h (if bufSize = 0 then 32768 else bufSize) src with
      | none => intro e he; rw [(by simpa using he : e = ⟨.pre, .src⟩)]
      | some sh =>
        cases htgt : hashHead h (if bufSize = 0 then 32768 else bufSize) tgt with
        | none =>
          intro e he
          rcases (by simpa using he) with h1 | h1 <;> rw [h1]
        | some th =>
          dsimp only
          by_cases hbe : (sh != th) = true
          · rw [if_pos hbe]
            intro e he
            rcases (by simpa using he) with h1 | h1 <;> rw [h1]
          · rw [if_neg hbe]
            intro e he
            rcases (by simpa using he) with h1 | h1 <;> rw [h1]

theorem scannerT_deep_events_full (h : List Nat → List Nat) (bufSize : Nat)
    (src tgt : FInfo) :
    ∀ e ∈ (compareFilesT h bufSize src tgt .deep).2, e.kind = .full := by
  simp only [compareFilesT]
  by_cases hsz : (src.size != tgt.size) = true
  · rw [if_pos hsz]; intro e he; simp at he
  · rw [if_neg hsz]
    by_cases hmt : (src.modTime - tgt.modTime).natAbs > 2
    · rw [if_pos hmt]; intro e he; simp at he
    · rw [if_neg hmt, if_neg (by simp), if_neg (by simp)]
      cases hsrc : hashFull h src with
      | none => intro e he; rw [(by simpa using he : e = ⟨.full, .src⟩)]
      | some sh =>
        cases htgt : hashFull h tgt with
        | none =>
          intro e he
          rcases (by simpa using he) with h1 | h1 <;> rw [h1]
        | some th =>
          dsimp only
          by_cases hbe : (sh != th) = true
          · rw [if_pos hbe]
            intro e he
            rcases (by simpa using he) with h1 | h1 <;> rw [h1]
          · rw [if_neg hbe]
            intro e he
            rcases (by simpa using he) with h1 | h1 <;> rw [h1]

theorem scannerT_metadata_fail (h : List Nat → List Nat) (bufSize : Nat)
    (src tgt : FInfo) (lvl : Level)
    (hm : ¬ src.size = tgt.size ∨ (src.modTime - tgt.modTime).natAbs > 2) :
    compareFilesT h bufSize src tgt lvl = (.statusDiffer, []) := by
  unfold compareFilesT
  rcases hm with hm | hm
  · rw [if_pos (by simpa using hm)]
  · by_cases hsz : src.size = tgt.size
    · rw [if_neg (by simpa using hsz), if_pos (by simpa using hm)]
    · rw [if_pos (by simpa using hsz)]

/-- C1 (amended): in the validator ladder, when the metadata gate fails
the deep comparison returns the quick result itself — no hash is
computed and the verdict carries level Quick; when the metadata gate
passes but the standard gate fails, the deep comparison returns the
standard result itself and only prefix hashes were computed; full-content
comparison happens only after the standard gate reported equivalence,
and in the event trace every prefix hash precedes every full-content
read. In Scanner.compareFiles a metadata failure likewise produces
Differ with no hash computed and level Standard computes only prefix
hashes; however its Deep branch performs only full-content hashing,
skipping the prefix gate, which is the divergence from the claim. -/
theorem validation_ladder_escalation (h : List Nat → List Nat) (algOk : Bool)
    (bufSize : Nat) (src tgt : FInfo) :
    ((quickCompareR src tgt).equal = false →
      deepCompareR h algOk bufSize src tgt = quickCompareR src tgt ∧
      (deepCompareR h algOk bufSize src tgt).events = [] ∧
      (deepCompareR h algOk bufSize src tgt).producedAt = .quick) ∧
    ((quickCompareR src tgt).equal = true →
      (standardCompareR h algOk bufSize src tgt).equal = false →
      deepCompareR h algOk bufSize src tgt = standardCompareR h algOk bufSize src tgt ∧
      (∀ e ∈ (deepCompareR h algOk bufSize src tgt).events, e.kind = .pre)) ∧
    ((∃ e ∈ (deepCompareR h algOk bufSize src tgt).events, e.kind = .full) →
      (standardCompareR h algOk bufSize src tgt).equal = true) ∧
    (∃ pres fulls, (deepCompareR h algOk bufSize src tgt).events = pres ++ fulls ∧
      (∀ e ∈ pres, e.kind = .pre) ∧ (∀ e ∈ fulls, e.kind = .full)) ∧
    (∀ lvl, (¬ src.size = tgt.size ∨ (src.modTime - tgt.modTime).natAbs > 2) →
      compareFilesT h bufSize src tgt lvl = (.statusDiffer, [])) ∧
    (∀ e ∈ (compareFilesT h bufSize src tgt .standard).2, e.kind = .pre) ∧
    (∀ e ∈ (compareFilesT h bufSize src tgt .deep).2, e.kind = .full) := by
  refine ⟨?_, ?_, ?_, deepCompareR_events_split h algOk bufSize src tgt,
    scannerT_metadata_fail h bufSize src tgt,
    scannerT_events_pre h bufSize src tgt,
    scannerT_deep_events_full h bufSize src tgt⟩
  · intro hq
    have hd := deepCompareR_of_quick_fail h algOk bufSize src tgt hq
    exact ⟨hd, by rw [hd, quickCompareR_events],
      by rw [hd, quickCompareR_producedAt]⟩
  · intro hq hst
    have hd := deepCompareR_of_standard_fail h algOk bufSize src tgt hq hst
    refine ⟨hd, ?_⟩
    rw [hd]
    exact standardCompareR_events_pre h algOk bufSize src tgt
  · intro hfull
    by_contra hst
    rcases hfull with ⟨e, he, hkind⟩
    by_cases hq : (quickCompareR src tgt).equal = true
    · have hd := deepCompareR_of_standard_fail h algOk bufSize src tgt hq
        (by simpa using hst)
      rw [hd] at he
      have := standardCompareR_events_pre h algOk bufSize src tgt e he
      rw [hkind] at this
      exact absurd this (by simp)
    · have hd := deepCompareR_of_quick_fail h algOk bufSize src tgt
        (by simpa using hq)
      rw [hd, quickCompareR_events] at he
      simp at he

/-- Witness for C1 (amended): a concrete size mismatch makes the deep
validator return the quick verdict with an empty event trace. -/
theorem validation_ladder_escalation_witness :
    deepCompareR (fun l => l) true 4 ⟨1, 0, [7], true⟩ ⟨2, 0, [7], true⟩ =
      quickCompareR ⟨1, 0, [7], true⟩ ⟨2, 0, [7], true⟩ ∧
    (deepCompareR (fun l => l) true 4 ⟨1, 0, [7], true⟩ ⟨2, 0, [7], true⟩).events = [] :=
  ⟨((validation_ladder_escalation (fun l => l) true 4 ⟨1, 0, [7], true⟩
      ⟨2, 0, [7], true⟩).1 (by decide)).1,
   ((validation_ladder_escalation (fun l => l) true 4 ⟨1, 0, [7], true⟩
      ⟨2, 0, [7], true⟩).1 (by decide)).2.1⟩

/-- C1 counterexample: for a concrete pair with equal metadata and
readable files, Scanner.compareFiles at level Deep computes the two
full-content hashes while executing no prefix-hash gate at all, so at
level Deep the prefix gate does not precede full-content comparison. -/
theorem scanner_deep_skips_head_gate_cex :
    (compareFilesT (fun l => l) 0 ⟨1, 0, [7], true⟩ ⟨1, 0, [7], true⟩ .deep).2 =
      [⟨.full, .src⟩, ⟨.full, .tgt⟩] ∧
    ∀ e ∈ (compareFilesT (fun l => l) 0 ⟨1, 0, [7], true⟩ ⟨1, 0, [7], true⟩ .deep).2,
      e.kind ≠ .pre := by
  decide

theorem applyOps_removals_other (fs : FS) (rs : List String) (p : String)
    (hp : p ∉ rs) : applyOps fs (rs.map .remove) p = fs p := by
  induction rs generalizing fs with
  | nil => rfl
  | cons r rs ih =>
    have hpr : p ≠ r := fun he => hp (he ▸ List.mem_cons_self r rs)
    have hprs : p ∉ rs := fun hm => hp (List.mem_cons_of_mem r hm)
    simp only [List.map_cons, applyOps, List.foldl_cons]
    rw [show (List.foldl applyOp (applyOp fs (.remove r)) (rs.map .remove)) =
      applyOps (applyOp fs (.remove r)) (rs.map .remove) from rfl]
    rw [ih (applyOp fs (.remove r)) hprs]
    simp [applyOp, hpr]

theorem saveIndex_crash_safe (fs0 : FS) (d : List Nat) :
    atomicFor fs0 (saveIndexOps d) indexJsonPath ∧
    applyOps fs0 (saveIndexOps d) indexJsonPath = some d := by
  have hne : tmpIndexPath ≠ indexJsonPath := by decide
  have hne2 : indexJsonPath ≠ tmpIndexPath := fun he => hne he.symm
  have hfinal : applyOps fs0 (saveIndexOps d) indexJsonPath = some d := by
    simp [applyOps, saveIndexOps, applyOp]
  refine ⟨?_, hfinal⟩
  intro i j
  match i with
  | 0 =>
    left
    simp [crashState, saveIndexOps, applyOps, applyOp, hne2]
  | 1 =>
    left
    simp [crashState, saveIndexOps, applyOps, applyOp, hne2]
  | n + 2 =>
    right
    have hget : (saveIndexOps d)[n + 2]? = none := by
      apply List.getElem?_eq_none_iff.mpr
      simp [saveIndexOps]
    have htake : (saveIndexOps d).take (n + 2) = saveIndexOps d :=
      List.take_of_length_le (by simp [saveIndexOps])
    simp only [crashState, hget, htake]

/-- C3 (amended): the fingerprint index is persisted through the
temp-file-and-rename sequence, so at every crash point index.json holds
either the prior content or the new one; the per-run record file, by
contrast, is written by CompleteVersion with one direct write, so a
crash in the middle of that write can leave versions of the run record
that are neither the prior state nor the completed file. -/
theorem journal_persistence (fs0 : FS) (idxData d : List Nat) (id : String)
    (removals : List String) (hv : versionFilePath id ∉ removals)
    (hlen : 2 ≤ d.length) (hfs : fs0 (versionFilePath id) = none) :
    (atomicFor fs0 (saveIndexOps idxData) indexJsonPath ∧
     applyOps fs0 (saveIndexOps idxData) indexJsonPath = some idxData) ∧
    ∃ i j,
      crashState fs0 (completeVersionOps id d removals) i j (versionFilePath id) ≠
        fs0 (versionFilePath id) ∧
      crashState fs0 (completeVersionOps id d removals) i j (versionFilePath id) ≠
        applyOps fs0 (completeVersionOps id d removals) (versionFilePath id) := by
  refine ⟨saveIndex_crash_safe fs0 idxData, 0, 1, ?_, ?_⟩
  · have hcrash :
        crashState fs0 (completeVersionOps id d removals) 0 1 (versionFilePath id) =
          some (d.take 1) := by
      simp [crashState, completeVersionOps]
    rw [hcrash, hfs]
    exact fun he => by simp at he
  · have hcrash :
        crashState fs0 (completeVersionOps id d removals) 0 1 (versionFilePath id) =
          some (d.take 1) := by
      simp [crashState, completeVersionOps]
    have hfinal :
        applyOps fs0 (completeVersionOps id d removals) (versionFilePath id) = some d := by
      simp only [completeVersionOps, applyOps, List.foldl_cons]
      rw [show (List.foldl applyOp (applyOp fs0 (.write (versionFilePath id) d))
          (removals.map .remove)) =
        applyOps (applyOp fs0 (.write (versionFilePath id) d)) (removals.map .remove) from rfl]
      rw [applyOps_removals_other _ _ _ hv]
      simp [applyOp]
    rw [hcrash, hfinal]
    intro he
    have : (d.take 1).length = d.length := by rw [(by simpa using he : d.take 1 = d)]
    rw [List.length_take] at this
    omega

/-- Witness for C3 (amended) at concrete data: after saveIndex the index
holds the new content, and the version file write admits a half-written
crash state. -/
theorem journal_persistence_witness :
    applyOps (fun _ => none) (saveIndexOps [5]) indexJsonPath = some [5] :=
  ((journal_persistence (fun _ => none) [5] [1, 2] "r" [] (by simp) (by decide)
    rfl).1).2

/-- C3 counterexample: with no removals, an empty prior filesystem and
record content [1, 2], a crash one byte into the single direct write of
CompleteVersion leaves the version file holding [1], which is neither
the prior state (absent) nor the completed record — so the version file
is not persisted by a temp-file-and-rename sequence. -/
theorem complete_version_not_atomic_cex :
    ¬ atomicFor (fun _ => none) (completeVersionOps "r" [1, 2] [])
        (versionFilePath "r") := by
  intro hA
  rcases hA 0 1 with hc | hc
  · have hv : crashState (fun _ => none) (completeVersionOps "r" [1, 2] []) 0 1
        (versionFilePath "r") = some [1] := by decide
    rw [hv] at hc
    simp at hc
  · have hv : crashState (fun _ => none) (completeVersionOps "r" [1, 2] []) 0 1
        (versionFilePath "r") = some [1] := by decide
    have hf : applyOps (fun _ => none) (completeVersionOps "r" [1, 2] [])
        (versionFilePath "r") = some [1, 2] := by decide
    rw [hv, hf] at hc
    simp at hc

theorem copyLoopAux_success (B : Nat) (hB : 0 < B)
    (srcMode srcMt createMode now : Int) :
    ∀ (fuel k : Nat) (r acc : List Nat), r.length < fuel →
      copyLoopAux B none none srcMode srcMt createMode now fuel k r acc =
        ⟨.success, some ⟨acc ++ r, srcMode, srcMt⟩⟩
  | 0, _, r, acc, hf => absurd hf (by omega)
  | fuel + 1, k, r, acc, hf => by
    unfold copyLoopAux
    rw [if_neg (by simp)]
    by_cases hr : r.isEmpty
    · rw [if_pos hr]
      rw [List.isEmpty_iff.mp hr]
      simp
    · rw [if_neg hr, if_neg (by simp)]
      have h0 : 0 < r.length :=
        List.length_pos.mpr (by simpa [List.isEmpty_iff] using hr)
      have hlen : (r.drop B).length < fuel := by
        rw [List.length_drop]; omega
      rw [copyLoopAux_success B hB srcMode srcMt createMode now fuel (k + 1)
        (r.drop B) (acc ++ r.take B) hlen]
      rw [List.append_assoc, List.take_append_drop]

theorem copyLoopAux_cancel (B : Nat) (hB : 0 < B)
    (srcMode srcMt createMode now : Int) :
    ∀ (j fuel k m : Nat) (r acc : List Nat), m = k + j → r.length < fuel →
      j * B < r.length + B →
      copyLoopAux B (some m) none srcMode srcMt createMode now fuel k r acc =
        ⟨.cancelled, some ⟨acc ++ r.take (j * B), createMode, now⟩⟩
  | 0, fuel, k, m, r, acc, hm, hf, hj => by
    cases fuel with
    | zero => omega
    | succ fuel =>
      unfold copyLoopAux
      rw [if_pos (by simp [hm])]
      simp
  | j + 1, fuel, k, m, r, acc, hm, hf, hj => by
    cases fuel with
    | zero => omega
    | succ fuel =>
      have hmul : (j + 1) * B = j * B + B := Nat.succ_mul j B
      have hjB : j * B < r.length := by
        generalize hA : j * B = a at hmul hj
        omega
      have h0 : 0 < r.length := by
        generalize hA : j * B = a at hjB
        omega
      unfold copyLoopAux
      rw [if_neg (by simp only [hm, Option.some.injEq]; omega)]
      rw [if_neg (by simp [List.isEmpty_iff, ← List.length_pos]; omega),
        if_neg (by simp)]
      have hlen : (r.drop B).length < fuel := by
        rw [List.length_drop]; omega
      have hj2 : j * B < (r.drop B).length + B := by
        rw [List.length_drop]
        generalize hA : j * B = a at hjB
        omega
      rw [copyLoopAux_cancel B hB srcMode srcMt createMode now j fuel (k + 1) m
        (r.drop B) (acc ++ r.take B) (by omega) hlen hj2]
      have hmul2 : (j + 1) * B = B + j * B := by rw [hmul]; omega
      rw [hmul2, List.take_add, List.append_assoc]

theorem copyLoopAux_writeErr (B : Nat) (hB : 0 < B)
    (srcMode srcMt createMode now : Int) :
    ∀ (j fuel k m : Nat) (r acc : List Nat), m = k + j → r.length < fuel →
      j * B < r.length →
      copyLoopAux B none (some m) srcMode srcMt createMode now fuel k r acc =
        ⟨.writeErr, some ⟨acc ++ r.take (j * B), createMode, now⟩⟩
  | 0, fuel, k, m, r, acc, hm, hf, hj => by
    cases fuel with
    | zero => omega
    | succ fuel =>
      unfold copyLoopAux
      rw [if_neg (by simp)]
      rw [if_neg (by simp [List.isEmpty_iff, ← List.length_pos]; omega)]
      rw [if_pos (by simp [hm])]
      simp
  | j + 1, fuel, k, m, r, acc, hm, hf, hj => by
    cases fuel with
    | zero => omega
    | succ fuel =>
      have hmul : (j + 1) * B = j * B + B := Nat.succ_mul j B
      have hjB : j * B < r.length - B := by
        generalize hA : j * B = a at hmul hj
        omega
      have h0 : 0 < r.length := by
        generalize hA : j * B = a at hjB
        omega
      unfold copyLoopAux
      rw [if_neg (by simp)]
      rw [if_neg (by simp [List.isEmpty_iff, ← List.length_pos]; omega)]
      rw [if_neg (by simp only [hm, Option.some.injEq]; omega)]
      have hlen : (r.drop B).length < fuel := by
        rw [List.length_drop]; omega
      have hj2 : j * B < (r.drop B).length := by
        rw [List.length_drop]
        exact hjB
      rw [copyLoopAux_writeErr B hB srcMode srcMt createMode now j fuel (k + 1) m
        (r.drop B) (acc ++ r.take B) (by omega) hlen hj2]
      have hmul2 : (j + 1) * B = B + j * B := by rw [hmul]; omega
      rw [hmul2, List.take_add, List.append_assoc]

/-- C4 (amended): when Copier.Copy observes the cancellation signal at a
buffer boundary or hits a write error, the routine returns the error and
leaves the partially written destination file in place with the bytes
copied so far — no branch removes it. A cancellation observed at
boundary k leaves the first k*B source bytes, as does a write failure at
boundary k. -/
theorem copier_copy_error_keeps_partial_file (B : Nat) (hB : 0 < B) (src : SFile)
    (hr : src.readable = true) (createMode now : Int) :
    (∀ k, k * B < src.content.length + B →
      copierCopy B (some k) none src createMode now =
        ⟨.cancelled, some ⟨src.content.take (k * B), createMode, now⟩⟩) ∧
    (∀ k, k * B < src.content.length →
      copierCopy B none (some k) src createMode now =
        ⟨.writeErr, some ⟨src.content.take (k * B), createMode, now⟩⟩) := by
  constructor
  · intro k hk
    unfold copierCopy
    rw [if_neg (by simp [hr])]
    simpa using copyLoopAux_cancel B hB src.mode src.modTime createMode now k
      (src.content.length + 1) 0 k src.content [] (by omega) (by omega) hk
  · intro k hk
    unfold copierCopy
    rw [if_neg (by simp [hr])]
    simpa using copyLoopAux_writeErr B hB src.mode src.modTime createMode now k
      (src.content.length + 1) 0 k src.content [] (by omega) (by omega) hk

/-- Witness for C4 (amended): cancelling at the first boundary of a
concrete copy leaves an empty destination file in place (not removed). -/
theorem copier_copy_error_keeps_partial_witness :
    copierCopy 3 (some 0) none ⟨[9, 9, 9, 9], 7, 50, true⟩ 6 77 =
      ⟨.cancelled, some ⟨[], 6, 77⟩⟩ := by
  have := (copier_copy_error_keeps_partial_file 3 (by decide) ⟨[9, 9, 9, 9], 7, 50, true⟩
    rfl 6 77).1 0 (by decide)
  simpa using this

/-- C4 counterexample: a concrete copy of four bytes with buffer size 2,
cancelled at the second boundary, returns cancelled with the destination
file still present and holding the first two bytes — the claim that the
partial destination is removed before returning is false here. -/
theorem copier_cancel_leaves_partial_cex :
    copierCopy 2 (some 1) none ⟨[0, 1, 2, 3], 7, 100, true⟩ 6 200 =
      ⟨.cancelled, some ⟨[0, 1], 6, 200⟩⟩ ∧
    (copierCopy 2 (some 1) none ⟨[0, 1, 2, 3], 7, 100, true⟩ 6 200).dst ≠ none := by
  decide

/-- C5 (amended): Copier.Copy on success sets both the destination
permission bits and mod-time to the source values; Manager.CopyFile sets
only the permission bits, leaving the destination mod-time at its write
timestamp; directoryProcessor.copyFile passes the source mode at file
creation (effective only when the destination is new) and sets the
mod-time to the source value only when PreserveMetadata is on. -/
theorem copy_metadata_preservation (B : Nat) (hB : 0 < B) (src : SFile)
    (hr : src.readable = true) (createMode now : Int) :
    (copierCopy B none none src createMode now =
      ⟨.success, some ⟨src.content, src.mode, src.modTime⟩⟩) ∧
    (managerCopyFile src none createMode now =
      ⟨.success, some ⟨src.content, src.mode, now⟩⟩) ∧
    (processorCopyFile src true none none now =
      ⟨.success, some ⟨src.content, src.mode, src.modTime⟩⟩) ∧
    (∀ dprior, processorCopyFile src true (some dprior) none now =
      ⟨.success, some ⟨src.content, dprior.mode, src.modTime⟩⟩) ∧
    (processorCopyFile src false none none now =
      ⟨.success, some ⟨src.content, src.mode, now⟩⟩) := by
  refine ⟨?_, ?_, ?_, ?_, ?_⟩
  · unfold copierCopy
    rw [if_neg (by simp [hr])]
    simpa using copyLoopAux_success B hB src.mode src.modTime createMode now
      (src.content.length + 1) 0 src.content [] (by omega)
  · simp [managerCopyFile, hr]
  · simp [processorCopyFile, hr]
  · intro dprior; simp [processorCopyFile, hr]
  · simp [processorCopyFile, hr]

/-- Witness for C5 (amended) at a concrete successful copy. -/
theorem copy_metadata_preservation_witness :
    copierCopy 2 none none ⟨[1, 2, 3], 7, 100, true⟩ 6 200 =
      ⟨.success, some ⟨[1, 2, 3], 7, 100⟩⟩ :=
  (copy_metadata_preservation 2 (by decide) ⟨[1, 2, 3], 7, 100, true⟩ rfl 6 200).1

/-- C5 counterexample: Manager.CopyFile completes a concrete transfer
successfully, sets the permission bits, but leaves the destination
mod-time at the write timestamp 200 instead of the source value 100 —
so not every successful copy operation sets the mod-time. -/
theorem manager_copyfile_no_mtime_cex :
    managerCopyFile ⟨[1], 7, 100, true⟩ none 6 200 =
      ⟨.success, some ⟨[1], 7, 200⟩⟩ ∧
    (managerCopyFile ⟨[1], 7, 100, true⟩ none 6 200).dst.map DFile.mtime ≠ some 100 := by
  decide

theorem lookupIndex_upsert (key : String) (v : FileMetadataV) :
    ∀ l, lookupIndex key (upsert key v l) = some v
  | [] => by simp [upsert, lookupIndex]
  | (k, w) :: rest => by
    by_cases hk : k = key
    · simp [upsert, lookupIndex, hk]
    · simp [upsert, lookupIndex, hk, lookupIndex_upsert key v rest]

/-- C6 (amended): RecordFile appends the outcome to the run record and
updates the totals for copied, skipped and failed alike — but it upserts
the fingerprint index entry for the path unconditionally, for failed
outcomes just as for copied and skipped ones. -/
theorem record_file_updates (st : MgrState) (path status : String)
    (size modTime : Int) (checksum : String) :
    (lookupIndex path (recordFile st path status size modTime checksum).indexFiles =
      some ⟨st.curID, size, modTime, checksum⟩) ∧
    ((recordFile st path status size modTime checksum).changes =
      st.changes ++ [⟨path, status, size,
        if status = "copied" then checksum else ""⟩]) ∧
    (status = "failed" →
      (recordFile st path status size modTime checksum).total.filesFailed =
        st.total.filesFailed + 1 ∧
      (recordFile st path status size modTime checksum).total.totalFiles =
        st.total.totalFiles + 1 ∧
      (recordFile st path status size modTime checksum).total.bytesCopied =
        st.total.bytesCopied) := by
  refine ⟨lookupIndex_upsert path _ _, rfl, ?_⟩
  intro hs
  subst hs
  dsimp only [recordFile]
  rw [if_neg (by decide), if_neg (by decide), if_pos rfl]
  exact ⟨rfl, rfl, rfl⟩

/-- Witness for C6 (amended): recording a failed outcome at concrete
state leaves the fingerprint index holding the new entry for the path. -/
theorem record_file_updates_witness :
    lookupIndex "x"
      (recordFile ⟨"r9", [], [], ⟨0, 0, 0, 0, 0, 0⟩, []⟩ "x" "failed" 1 2 "c").indexFiles =
      some ⟨"r9", 1, 2, "c"⟩ :=
  (record_file_updates ⟨"r9", [], [], ⟨0, 0, 0, 0, 0, 0⟩, []⟩ "x" "failed" 1 2 "c").1

/-- C6 counterexample: recording action failed for path a/b against an
empty fingerprint index changes the index — it now holds an entry for
a/b — refuting the claim that the index is left unchanged on failed. -/
theorem record_failed_updates_index_cex :
    (recordFile ⟨"run1", [], [], ⟨0, 0, 0, 0, 0, 0⟩, []⟩ "a/b" "failed" 3 5 "h1").indexFiles =
      [("a/b", ⟨"run1", 3, 5, "h1"⟩)] ∧
    (recordFile ⟨"run1", [], [], ⟨0, 0, 0, 0, 0, 0⟩, []⟩ "a/b" "failed" 3 5 "h1").indexFiles ≠
      ([] : List (String × FileMetadataV)) := by
  decide

theorem retryAux_inv_ge (retryAttempts : Nat) (execOk : Nat → Bool) (base : Nat)
    (jitter : Nat → Nat) :
    ∀ (countdown attempt inv : Nat) (delays : List Nat),
      inv ≤ (retryAux retryAttempts execOk base jitter countdown attempt inv delays).2.1
  | 0, _, inv, delays => le_refl _
  | countdown + 1, attempt, inv, delays => by
    unfold retryAux
    by_cases he : execOk attempt
    · rw [if_pos he]; simp
    · rw [if_neg he]
      by_cases ha : attempt < retryAttempts
      · rw [if_pos ha]
        calc inv ≤ inv + 1 := by omega
        _ ≤ _ := retryAux_inv_ge retryAttempts execOk base jitter countdown
            (attempt + 1) (inv + 1) _
      · rw [if_neg ha]; simp

theorem retryAux_inv_succ (retryAttempts : Nat) (execOk : Nat → Bool) (base : Nat)
    (jitter : Nat → Nat) (countdown attempt inv : Nat) (delays : List Nat)
    (hc : 1 ≤ countdown) :
    inv + 1 ≤ (retryAux retryAttempts execOk base jitter countdown attempt inv delays).2.1 := by
  cases countdown with
  | zero => omega
  | succ countdown =>
    unfold retryAux
    by_cases he : execOk attempt
    · rw [if_pos he]
    · rw [if_neg he]
      by_cases ha : attempt < retryAttempts
      · rw [if_pos ha]
        exact retryAux_inv_ge retryAttempts execOk base jitter countdown
          (attempt + 1) (inv + 1) _
      · rw [if_neg ha]

theorem retryAux_all_fail (retryAttempts : Nat) (execOk : Nat → Bool) (base : Nat)
    (jitter : Nat → Nat) :
    ∀ (countdown attempt inv : Nat) (delays : List Nat),
      countdown + attempt = retryAttempts + 1 → 1 ≤ attempt → attempt ≤ retryAttempts →
      (∀ a, attempt ≤ a → a ≤ retryAttempts → execOk a = false) →
      retryAux retryAttempts execOk base jitter countdown attempt inv delays =
        (false, inv + countdown,
          delays ++ (List.range' attempt (countdown - 1)).map
            (fun a => base * a * a + jitter a))
  | 0, attempt, inv, delays, hc, h1, hle, hall => by omega
  | countdown + 1, attempt, inv, delays, hc, h1, hle, hall => by
    unfold retryAux
    rw [if_neg (by simp [hall attempt (le_refl attempt) hle])]
    by_cases ha : attempt < retryAttempts
    · rw [if_pos ha]
      obtain ⟨c, rfl⟩ : ∃ c, countdown = c + 1 := ⟨countdown - 1, by omega⟩
      rw [retryAux_all_fail retryAttempts execOk base jitter (c + 1) (attempt + 1)
        (inv + 1) (delays ++ [base * attempt * attempt + jitter attempt]) (by omega)
        (by omega) (by omega) (fun a hge hle2 => hall a (by omega) hle2)]
      have hinv : inv + 1 + (c + 1) = inv + (c + 1 + 1) := by omega
      rw [hinv]
      simp only [Nat.add_sub_cancel]
      rw [show List.range' attempt (c + 1) =
        attempt :: List.range' (attempt + 1) c from rfl]
      simp [List.append_assoc]
    · rw [if_neg ha]
      have hatt : attempt = retryAttempts := by omega
      have hcz : countdown = 0 := by omega
      subst hcz
      simp [List.range']

/-- C7 (amended): for every task the skip check does not mark skipped,
the pool emits exactly one result; when the configured retry attempts is
at least 1 the executor is invoked at least once, and when every attempt
fails the single emitted result is failed after exactly retryAttempts
invocations, with the sleeps between attempts equal to
base * attempt * attempt plus the jitter drawn for that attempt, for
attempts 1 to retryAttempts - 1. When retry attempts is 0, however, the
executor is never invoked and the task is emitted as failed — the
divergence from the claim. Skip-check results are also characterized. -/
theorem worker_pool_retry (retryAttempts : Nat) (execOk : Nat → Bool)
    (base : Nat) (jitter : Nat → Nat) :
    (1 ≤ retryAttempts →
      1 ≤ (processTask (.ok false) retryAttempts execOk base jitter).2.1) ∧
    ((∀ a, 1 ≤ a → a ≤ retryAttempts → execOk a = false) → 1 ≤ retryAttempts →
      processTask (.ok false) retryAttempts execOk base jitter =
        (.failed, retryAttempts,
          (List.range' 1 (retryAttempts - 1)).map
            (fun a => base * a * a + jitter a))) ∧
    (processTask (.ok false) 0 execOk base jitter = (.failed, 0, [])) ∧
    (processTask (.ok true) retryAttempts execOk base jitter = (.skipped, 0, [])) ∧
    (processTask (.error ()) retryAttempts execOk base jitter = (.failed, 0, [])) := by
  refine ⟨?_, ?_, rfl, rfl, rfl⟩
  · intro hra
    have hinv : 0 + 1 ≤ (retryAux retryAttempts execOk base jitter
        retryAttempts 1 0 []).2.1 :=
      retryAux_inv_succ retryAttempts execOk base jitter retryAttempts 1 0 [] hra
    have hproj : (processTask (.ok false) retryAttempts execOk base jitter).2 =
        (executeWithRetry retryAttempts execOk base jitter).2 := by
      unfold processTask
      rcases hE : executeWithRetry retryAttempts execOk base jitter with ⟨b, inv, d⟩
      cases b <;> simp
    rw [hproj]
    simpa using hinv
  · intro hall hra
    have hE : executeWithRetry retryAttempts execOk base jitter =
        (false, retryAttempts,
          (List.range' 1 (retryAttempts - 1)).map (fun a => base * a * a + jitter a)) := by
      unfold executeWithRetry
      rw [retryAux_all_fail retryAttempts execOk base jitter retryAttempts 1 0 []
        (by omega) (by omega) hra hall]
      simp
    unfold processTask
    rw [hE]

/-- Witness for C7 (amended): two attempts that both fail produce one
failed result, two invocations, and the single delay 10 * 1 * 1 + 3. -/
theorem worker_pool_retry_witness :
    processTask (.ok false) 2 (fun _ => false) 10 (fun _ => 3) = (.failed, 2, [13]) := by
  have := (worker_pool_retry 2 (fun _ => false) 10 (fun _ => 3)).2.1
    (fun a h1 h2 => rfl) (by omega)
  exact this.trans (by decide)

/-- C7 counterexample: with retry attempts configured as 0 and an
executor that always succeeds, the pool emits a failed result after
zero executor invocations — refuting the claim that the executor is
invoked at least once including when retry attempts is 0. -/
theorem worker_zero_attempts_cex :
    processTask (.ok false) 0 (fun _ => true) 10 (fun _ => 0) = (.failed, 0, []) := by
  rfl

/-- C8 (amended): the effective worker count of a sync run is the source
side maxThreads (defaulted from the source storage type when configured
as 0); it does not depend on the target side at all, and in particular
is not the minimum of the two sides. -/
theorem sync_worker_count_source_only (source target target2 : StorageSide) :
    effectiveWorkers source target = effectiveWorkers source target2 ∧
    (source.maxThreads ≠ 0 → effectiveWorkers source target = source.maxThreads) ∧
    (source.maxThreads = 0 → source.storageType = "ssd" →
      effectiveWorkers source target = 16) := by
  refine ⟨rfl, ?_, ?_⟩
  · intro h
    unfold effectiveWorkers resolveThreads
    by_cases hs : source.storageType = "ssd"
    · simp [hs, h]
    · by_cases hn : source.storageType = "network"
      · simp [hs, hn, h]
      · simp [hs, hn, h]
  · intro h0 hssd
    simp [effectiveWorkers, resolveThreads, h0, hssd]

/-- Witness for C8 (amended): an hdd source configured with 4 threads
drives the pool with 4 workers whatever the target side says. -/
theorem sync_worker_count_source_only_witness :
    effectiveWorkers ⟨"hdd", 4⟩ ⟨"ssd", 16⟩ = 4 :=
  (sync_worker_count_source_only ⟨"hdd", 4⟩ ⟨"ssd", 16⟩ ⟨"network", 8⟩).2.1
    (by decide)

/-- C8 counterexample: with an ssd source at 16 threads and an hdd
target at 4, the code runs 16 workers while min(source, target) would be
4 — the sync worker count is not the minimum of the two sides. -/
theorem effective_workers_not_min_cex :
    effectiveWorkers ⟨"ssd", 16⟩ ⟨"hdd", 4⟩ = 16 ∧
    specEffectiveWorkers ⟨"ssd", 16⟩ ⟨"hdd", 4⟩ = 4 ∧
    effectiveWorkers ⟨"ssd", 16⟩ ⟨"hdd", 4⟩ ≠
      specEffectiveWorkers ⟨"ssd", 16⟩ ⟨"hdd", 4⟩ := by
  decide

/-- C9 (amended): after a successful CompleteVersion at most 30 run
record files remain; nothing is lost except the removed files, which are
exactly the oldest ones beyond the 30 newest by sorted run id; and no
file is removed exactly when at most 30 files — counting the newly
written record — are present, that is, when at most 29 prior records
existed. Completing a run over exactly 30 prior records removes the
oldest one. -/
theorem retention_after_complete (prior : List Nat) (newId : Nat) :
    ((completeVersionRetention prior newId).1.length ≤ 30) ∧
    (List.Perm
      ((completeVersionRetention prior newId).1 ++
        (completeVersionRetention prior newId).2)
      (prior ++ [newId])) ∧
    (∀ x ∈ (completeVersionRetention prior newId).2,
      ∀ y ∈ (completeVersionRetention prior newId).1, x ≤ y) ∧
    ((completeVersionRetention prior newId).2 = [] ↔ prior.length + 1 ≤ 30) := by
  simp only [completeVersionRetention, cleanupOldVersions]
  by_cases hlen : (prior ++ [newId]).length > 30
  · simp only [hlen, if_true]
    refine ⟨?_, ?_, ?_, ?_⟩
    · simp only [List.length_take]
      exact Nat.min_le_left _ _
    · rw [List.take_append_drop]
      exact List.perm_insertionSort _ _
    · have hs : List.Pairwise (· ≥ ·)
          ((((prior ++ [newId]).insertionSort (· ≥ ·)).take 30) ++
            (((prior ++ [newId]).insertionSort (· ≥ ·)).drop 30)) := by
        rw [List.take_append_drop]
        exact List.sorted_insertionSort _ _
      intro x hx y hy
      exact (List.pairwise_append.mp hs).2.2 y hy x hx
    · rw [List.drop_eq_nil_iff, List.length_insertionSort]
      simp only [List.length_append, List.length_singleton]
  · simp only [hlen, if_false]
    have hlen2 : (prior ++ [newId]).length ≤ 30 := by omega
    refine ⟨hlen2, ?_, ?_, ?_⟩
    · rw [List.append_nil]
    · intro x hx
      simp at hx
    · simp only [List.length_append, List.length_singleton] at hlen2
      simp [hlen2]

/-- Witness for C9 (amended): completing a run over three prior records
removes nothing. -/
theorem retention_after_complete_witness :
    (completeVersionRetention [3, 1, 2] 4).2 = [] :=
  (retention_after_complete [3, 1, 2] 4).2.2.2.mpr (by decide)

/-- C9 counterexample: completing a run with exactly 30 existing records
(ids 0 to 29, new id 30) removes the record with id 0, so completing a
run with 30 existing records does remove a file. -/
theorem retention_thirty_prior_removes_cex :
    (List.range 30).length = 30 ∧
    (completeVersionRetention (List.range 30) 30).2 = [0] := by
  decide

/-- Witness for C2 at concrete metadata: equal sizes and mod-times 2
seconds apart give a match at Quick. -/
theorem quick_compare_metadata_gate_witness :
    quickCompare ⟨10, 100, [1], true⟩ ⟨10, 102, [2], true⟩ = true :=
  ((quick_compare_metadata_gate (fun l => l) 0 ⟨10, 100, [1], true⟩
    ⟨10, 102, [2], true⟩).1).mpr (by decide)

end BackupButler
